/-
Verification of the STFT noise-reduction engine (NoiseReduction.cpp).

Shallow embedding: the integer-valued configuration logic is modelled over
Nat, profile statistics over the rationals, and the floating-point signal
path over the reals.  Definitions follow the source functions; theorems
relate them to independent specifications.
-/
import Mathlib

namespace NoiseReduction

/-- Discrimination methods, from the DiscriminationMethod enum. -/
inductive DiscriminationMethod where
  | DM_MEDIAN
  | DM_SECOND_GREATEST
  | DM_OLD_METHOD
deriving DecidableEq, Repr

open DiscriminationMethod

/-- Settings stored between uses of the effect (class Settings).  Double
fields are modelled as rationals, the advanced int choices as naturals. -/
structure Settings where
  mNewSensitivity : ℚ
  mFreqSmoothingBands : ℚ
  mNoiseGain : ℚ
  mAttackTime : ℚ
  mReleaseTime : ℚ
  mNoiseReductionChoice : ℕ
  mWindowTypes : ℕ
  mWindowSizeChoice : ℕ
  mStepsPerWindowChoice : ℕ
  mMethod : DiscriminationMethod

/-- Settings::WindowSize: 1u << (3 + mWindowSizeChoice). -/
def Settings.WindowSize (s : Settings) : ℕ := 2 ^ (3 + s.mWindowSizeChoice)

/-- Settings::StepsPerWindow: 1u << (1 + mStepsPerWindowChoice). -/
def Settings.StepsPerWindow (s : Settings) : ℕ := 2 ^ (1 + s.mStepsPerWindowChoice)

/-- minSteps field of the windowTypesInfo table, indexed by window type id. -/
def minSteps : ℕ → ℕ
  | 0 => 2
  | 1 => 2
  | 2 => 4
  | 3 => 4
  | 4 => 2
  | 5 => 4
  | 6 => 2
  | _ => 2

/-- Settings::Validate: three rejection tests, in source order. -/
def Settings.Validate (s : Settings) : Bool :=
  if s.StepsPerWindow < minSteps s.mWindowTypes then false
  else if s.WindowSize < s.StepsPerWindow then false
  else if s.mMethod = DM_MEDIAN ∧ 4 < s.StepsPerWindow then false
  else true

/-- Default settings, from the preference table in PrefsIO. -/
def defaultSettings : Settings :=
  { mNewSensitivity := 6
    mFreqSmoothingBands := 3
    mNoiseGain := 12
    mAttackTime := 1/50
    mReleaseTime := 1/10
    mNoiseReductionChoice := 0
    mWindowTypes := 2
    mWindowSizeChoice := 8
    mStepsPerWindowChoice := 1
    mMethod := DM_SECOND_GREATEST }

/-- Hop size: mStepSize = mWindowSize / mStepsPerWindow. -/
def mStepSize (s : Settings) : ℕ := s.WindowSize / s.StepsPerWindow

/-- Magic constant used only by the old discrimination method. -/
def minSignalTime : ℚ := 1/20

/-- mNWindowsToExamine, from the Worker constructor. -/
def mNWindowsToExamine (s : Settings) (sampleRate : ℚ) : ℕ :=
  if s.mMethod = DM_OLD_METHOD then
    max 2 ⌊minSignalTime * sampleRate / (mStepSize s : ℚ)⌋.toNat
  else 1 + s.StepsPerWindow

/-- mCenter = mNWindowsToExamine / 2. -/
def mCenter (s : Settings) (sampleRate : ℚ) : ℕ := mNWindowsToExamine s sampleRate / 2

/-- nAttackBlocks = 1 + (int)(attackTime * sampleRate / stepSize). -/
def nAttackBlocks (s : Settings) (sampleRate : ℚ) : ℕ :=
  1 + ⌊s.mAttackTime * sampleRate / (mStepSize s : ℚ)⌋.toNat

/-- nReleaseBlocks = 1 + (int)(releaseTime * sampleRate / stepSize). -/
def nReleaseBlocks (s : Settings) (sampleRate : ℚ) : ℕ :=
  1 + ⌊s.mReleaseTime * sampleRate / (mStepSize s : ℚ)⌋.toNat

/-- mHistoryLen, from the Worker constructor.  OLD_METHOD_AVAILABLE is not
defined, so the profile branch is the constant 1. -/
def mHistoryLen (doProfile : Bool) (s : Settings) (sampleRate : ℚ) : ℕ :=
  if doProfile then 1
  else max (mNWindowsToExamine s sampleRate) (mCenter s sampleRate + nAttackBlocks s sampleRate)

/-! Profile statistics (class Statistics, GatherStatistics, FinishTrackStatistics),
with float vectors modelled as functions into the rationals. -/

/-- Statistics persisting between the two passes. -/
structure Statistics where
  mTotalWindows : ℕ
  mTrackWindows : ℕ
  mSums : ℕ → ℚ
  mMeans : ℕ → ℚ

/-- Statistics as first constructed: all counters and vectors zero. -/
def initStatistics : Statistics :=
  { mTotalWindows := 0, mTrackWindows := 0, mSums := fun _ => 0, mMeans := fun _ => 0 }

/-- Worker::GatherStatistics: bump the track-window count and add the head
record's power spectrum into the per-bin sums. -/
def GatherStatistics (powers : ℕ → ℚ) (st : Statistics) : Statistics :=
  { st with
    mTrackWindows := st.mTrackWindows + 1
    mSums := fun j => st.mSums j + powers j }

/-- Worker::FinishTrackStatistics: fold the per-track sums into the running
means (skipped when no windows were gathered), then reset the counters. -/
def FinishTrackStatistics (st : Statistics) : Statistics :=
  if st.mTrackWindows = 0 then
    { st with
      mTrackWindows := 0
      mTotalWindows := st.mTrackWindows + st.mTotalWindows }
  else
    { mMeans := fun j =>
        (st.mMeans j * st.mTotalWindows + st.mSums j) /
          ((st.mTrackWindows : ℚ) + st.mTotalWindows)
      mSums := fun _ => 0
      mTrackWindows := 0
      mTotalWindows := st.mTrackWindows + st.mTotalWindows }

/-- One profile source: every window is ingested, then the track is finished. -/
def processSource (st : Statistics) (ws : List (ℕ → ℚ)) : Statistics :=
  FinishTrackStatistics (ws.foldl (fun acc p => GatherStatistics p acc) st)

/-- A whole profile pass over a sequence of sources. -/
def processProfile (sources : List (List (ℕ → ℚ))) : Statistics :=
  sources.foldl processSource initStatistics

/-- Power accumulated at bin j over the windows of one source. -/
def sourceSum (ws : List (ℕ → ℚ)) (j : ℕ) : ℚ := (ws.map (fun p => p j)).sum

/-- Power accumulated at bin j over all windows of all sources. -/
def grandSum (sources : List (List (ℕ → ℚ))) (j : ℕ) : ℚ :=
  (sources.map (fun ws => sourceSum ws j)).sum

/-- Total number of ingested windows over all sources. -/
def totalCount (sources : List (List (ℕ → ℚ))) : ℕ :=
  (sources.map List.length).sum

/-! Worker scalar fields derived in the constructor, over the reals. -/

open Real

/-- DB_TO_LINEAR macro: decibels applied to amplitudes, 10^(x/20). -/
noncomputable def DB_TO_LINEAR (x : ℝ) : ℝ := (10 : ℝ) ^ (x / 20)

/-- mNoiseAttenFactor = DB_TO_LINEAR(noiseGain) with noiseGain = -settings.mNoiseGain. -/
noncomputable def mNoiseAttenFactor (noiseGainSetting : ℝ) : ℝ :=
  DB_TO_LINEAR (-noiseGainSetting)

/-- mOneBlockAttack = DB_TO_LINEAR(noiseGain / nAttackBlocks). -/
noncomputable def mOneBlockAttack (noiseGainSetting : ℝ) (nAttack : ℕ) : ℝ :=
  DB_TO_LINEAR (-noiseGainSetting / nAttack)

/-- mOneBlockRelease = DB_TO_LINEAR(noiseGain / nReleaseBlocks). -/
noncomputable def mOneBlockRelease (noiseGainSetting : ℝ) (nRelease : ℕ) : ℝ :=
  DB_TO_LINEAR (-noiseGainSetting / nRelease)

/-- mNewSensitivity field: the base-10 log setting turned into a natural log. -/
noncomputable def mNewSensitivity (sensitivitySetting : ℝ) : ℝ :=
  sensitivitySetting * Real.log 10

/-! The classifier (Worker::Classify), second-greatest method. -/

/-- One step of the scan in the DM_SECOND_GREATEST branch: the pair holds
(greatest, second) and is updated by one examined power value. -/
noncomputable def secondGreatestStep (gs : ℝ × ℝ) (power : ℝ) : ℝ × ℝ :=
  if gs.1 ≤ power then (power, gs.1)
  else if gs.2 ≤ power then (gs.1, power)
  else gs

/-- The scan over all examined windows, starting from greatest = second = 0. -/
noncomputable def secondGreatestPair (powers : List ℝ) : ℝ × ℝ :=
  powers.foldl secondGreatestStep (0, 0)

/-- The power values examined for one band: mQueue[ii].mSpectrums[band]
for ii < mNWindowsToExamine. -/
def examinedPowers (n : ℕ) (queue : ℕ → ℕ → ℝ) (band : ℕ) : List ℝ :=
  (List.range n).map fun ii => queue ii band

/-- Worker::Classify, DM_SECOND_GREATEST branch: noise iff the second of the
scanned pair is at most mNewSensitivity * means[band]. -/
noncomputable def Classify (n : ℕ) (queue : ℕ → ℕ → ℝ) (sens : ℝ) (means : ℕ → ℝ)
    (band : ℕ) : Prop :=
  (secondGreatestPair (examinedPowers n queue band)).2 ≤ sens * means band

/-- Specification-side second largest: element at index 1 of the list sorted
into descending order (0 if the list is too short). -/
noncomputable def secondLargest (l : List ℝ) : ℝ :=
  (l.insertionSort (fun x y => y ≤ x)).getD 1 0

/-! Ring gain operations.  The ring of gain vectors is modelled as a function
from slot index (0 = newest) and band index to the gain value. -/

/-- StartNewTrack: all gain vectors are filled with mNoiseAttenFactor. -/
def startGains (atten : ℝ) : ℕ → ℕ → ℝ := fun _ _ => atten

/-- FillFirstHistoryWindow, gain part (non-isolate modes): default the head
record's gains to the reduction factor. -/
def fillHeadGains (atten : ℝ) (g : ℕ → ℕ → ℝ) : ℕ → ℕ → ℝ :=
  fun ii jj => if ii = 0 then atten else g ii jj

/-- ReduceNoise, classification phase in the non-isolate branch: bands outside
[binLow, binHigh) but inside the spectrum get gain 1; inside the range,
non-noise bands get gain 1 and noise bands keep their gain.  The classifier
verdicts are taken as an arbitrary mask. -/
def reduceRaise (center binLow binHigh size : ℕ) (isNoise : ℕ → Bool)
    (g : ℕ → ℕ → ℝ) : ℕ → ℕ → ℝ :=
  fun ii jj =>
    if ii = center then
      if jj < binLow then 1
      else if binHigh ≤ jj ∧ jj < size then 1
      else if binLow ≤ jj ∧ jj < binHigh then
        (if isNoise jj then g ii jj else 1)
      else g ii jj
    else g ii jj

/-- Attack walk over one band's column of gains, with the break: fuel counts
the remaining slots (mHistoryLen - i); prev is the gain written at the
previous slot. -/
noncomputable def attackColAux (atten a : ℝ) :
    (ℕ → ℝ) → ℝ → ℕ → ℕ → (ℕ → ℝ)
  | c, _, _, 0 => c
  | c, prev, i, fuel + 1 =>
    let minimum := max atten (prev * a)
    if c i < minimum then
      attackColAux atten a (Function.update c i minimum) minimum (i + 1) fuel
    else c

/-- Attack over one column: walk slots mCenter+1 .. mHistoryLen-1. -/
noncomputable def attackCol (atten a : ℝ) (center histLen : ℕ) (c : ℕ → ℝ) : ℕ → ℝ :=
  attackColAux atten a c (c center) (center + 1) (histLen - (center + 1))

/-- ReduceNoise, attack phase: each band's column is walked independently. -/
noncomputable def attackStep (atten a : ℝ) (center histLen : ℕ)
    (g : ℕ → ℕ → ℝ) : ℕ → ℕ → ℝ :=
  fun ii jj => attackCol atten a center histLen (fun i => g i jj) ii

/-- ReduceNoise, release phase: slot mCenter-1 takes the maximum of its own
gain and the decayed center gain, floored at mNoiseAttenFactor. -/
def releaseStep (atten r : ℝ) (center : ℕ) (g : ℕ → ℕ → ℝ) : ℕ → ℕ → ℝ :=
  fun ii jj =>
    if ii = center - 1 then
      max (g (center - 1) jj) (max atten (g center jj * r))
    else g ii jj

/-- Temporal shaping: the attack walk followed by the release. -/
noncomputable def temporalShape (atten a r : ℝ) (center histLen : ℕ)
    (g : ℕ → ℕ → ℝ) : ℕ → ℕ → ℝ :=
  releaseStep atten r center (attackStep atten a center histLen g)

/-- Decay curve of candidate gains along the attack walk: term k is the
candidate for slot center+1+k, starting from the center gain g0. -/
noncomputable def DecaySeq (atten a g0 : ℝ) : ℕ → ℝ
  | 0 => max atten (g0 * a)
  | k + 1 => max atten (DecaySeq atten a g0 k * a)

/-! Frequency smoothing (Worker::ApplyFreqSmoothing). -/

/-- ApplyFreqSmoothing: unless the bin half-width is zero, replace each gain
with the exponential of the averaged logs over the clipped window, using the
scratch vector exactly as the source does. -/
noncomputable def ApplyFreqSmoothing (size B : ℕ) (gains : ℕ → ℝ) : ℕ → ℝ :=
  if B = 0 then gains
  else fun ii =>
    if ii < size then
      Real.exp
        ((∑ jj in Finset.Icc (ii - B) (min (size - 1) (ii + B)), Real.log (gains jj)) /
          ((min (size - 1) (ii + B) - (ii - B) + 1 : ℕ) : ℝ))
    else gains ii

/-- Specification-side smoothing: the geometric mean, written as exp of the
arithmetic mean of logs over the clipped symmetric window. -/
noncomputable def specFreqSmoothed (size B : ℕ) (gains : ℕ → ℝ) (i : ℕ) : ℝ :=
  Real.exp
    ((∑ j in Finset.Icc (i - B) (min (size - 1) (i + B)), Real.log (gains j)) /
      ((Finset.Icc (i - B) (min (size - 1) (i + B))).card : ℝ))

/-! Analysis window construction (Worker constructor). -/

/-- Analysis coefficients (c0, c1, c2) per window type, from windowTypesInfo. -/
noncomputable def inCoefficients : ℕ → ℝ × ℝ × ℝ
  | 0 => (1, 0, 0)
  | 1 => (1/2, -1/2, 0)
  | 2 => (1/2, -1/2, 0)
  | 3 => (0.42, -0.5, 0.08)
  | 4 => (0.54, -0.46, 0)
  | 5 => (0.54, -0.46, 0)
  | 6 => (0.54, -0.46, 0)
  | _ => (0, 0, 0)

/-- productConstantTerm per window type, from windowTypesInfo. -/
noncomputable def productConstantTerm : ℕ → ℝ
  | 0 => 0.5
  | 1 => 0.5
  | 2 => 0.375
  | 3 => 0.335
  | 4 => 0.54
  | 5 => 0.385
  | 6 => 1
  | _ => 0

/-- The overlap correction multiplier 1 / (constantTerm * stepsPerWindow). -/
noncomputable def overlapMultiplier (t steps : ℕ) : ℝ :=
  1 / (productConstantTerm t * steps)

/-- The raised-cosine polynomial evaluated at sample i of a window of size W. -/
noncomputable def windowPoly (c0 c1 c2 : ℝ) (W i : ℕ) : ℝ :=
  c0 + c1 * Real.cos (2 * Real.pi * i / W) + c2 * Real.cos (4 * Real.pi * i / W)

/-- mInWindow, from the analysis-window switch in the Worker constructor:
absent for WT_RECTANGULAR_HANN; otherwise the polynomial, multiplied by the
overlap multiplier exactly when the synthesis window is rectangular
(WT_HANN_RECTANGULAR or WT_HAMMING_RECTANGULAR). -/
noncomputable def mInWindow (t W steps : ℕ) : Option (ℕ → ℝ) :=
  if t = 0 then none
  else
    some fun i =>
      (if t = 4 ∨ t = 1 then overlapMultiplier t steps else 1) *
        windowPoly (inCoefficients t).1 (inCoefficients t).2.1 (inCoefficients t).2.2 W i

/-- Evaluation of the optional analysis window at one sample index. -/
noncomputable def mInWindowAt (t W steps i : ℕ) : Option ℝ :=
  (mInWindow t W steps).map fun f => f i

/-! History records and FillFirstHistoryWindow (spectrum part). -/

/-- One history record: power spectrum, gains, packed real and imaginary bins. -/
structure SpectrumRecord where
  mSpectrums : ℕ → ℝ
  mGains : ℕ → ℝ
  mRealFFTs : ℕ → ℝ
  mImagFFTs : ℕ → ℝ

/-- StartNewTrack: spectrums and bins zeroed, gains set to mNoiseAttenFactor. -/
def startRecord (atten : ℝ) : SpectrumRecord :=
  { mSpectrums := fun _ => 0
    mGains := fun _ => atten
    mRealFFTs := fun _ => 0
    mImagFFTs := fun _ => 0 }

/-- FillFirstHistoryWindow: extract packed bins from the transformed buffer
through the bit-reversal permutation, store powers as sums of squares, and in
non-isolate modes reset the gains to mNoiseAttenFactor.  fft is the buffer
after the in-place real FFT and br the BitReversed index table. -/
def FillFirstHistoryWindow (size : ℕ) (fft : ℕ → ℝ) (br : ℕ → ℕ) (atten : ℝ)
    (isolate : Bool) (old : SpectrumRecord) : SpectrumRecord :=
  { mRealFFTs := fun ii =>
      if ii = 0 then fft 0
      else if ii < size - 1 then fft (br ii)
      else old.mRealFFTs ii
    mImagFFTs := fun ii =>
      if ii = 0 then fft 1
      else if ii < size - 1 then fft (br ii + 1)
      else old.mImagFFTs ii
    mSpectrums := fun ii =>
      if ii = size - 1 then fft 1 * fft 1
      else if ii = 0 then fft 0 * fft 0
      else if ii < size - 1 then fft (br ii) * fft (br ii) + fft (br ii + 1) * fft (br ii + 1)
      else old.mSpectrums ii
    mGains := if isolate then old.mGains else fun _ => atten }

/-- RotateHistoryWindows: the last record becomes the head, others shift up. -/
def RotateHistoryWindows (histLen : ℕ) (q : ℕ → SpectrumRecord) : ℕ → SpectrumRecord :=
  fun i => if i = 0 then q (histLen - 1) else q (i - 1)

/-- Every gain of every ring slot lies in the closed interval [atten, 1]. -/
def GainsInRange (atten : ℝ) (g : ℕ → ℕ → ℝ) : Prop :=
  ∀ ii jj, atten ≤ g ii jj ∧ g ii jj ≤ 1

/-- Every entry of one gain vector of the given size lies in [atten, 1]. -/
def VecInRange (atten : ℝ) (size : ℕ) (v : ℕ → ℝ) : Prop :=
  ∀ j, j < size → atten ≤ v j ∧ v j ≤ 1

/-! Theorems. -/

lemma stepsPerWindow_gt_four_iff (s : Settings) :
    4 < s.StepsPerWindow ↔ 1 + s.StepsPerWindow ≠ 3 ∧ 1 + s.StepsPerWindow ≠ 5 := by
  unfold Settings.StepsPerWindow
  rcases s.mStepsPerWindowChoice with _ | _ | c
  · simp
  · simp
  · have h8 : 8 ≤ 2 ^ (1 + (c + 1 + 1)) := by
      calc (8 : ℕ) = 2 ^ 3 := by norm_num
      _ ≤ 2 ^ (1 + (c + 1 + 1)) := Nat.pow_le_pow_right (by norm_num) (by omega)
    exact ⟨fun _ => ⟨by omega, by omega⟩, fun _ => by omega⟩

/-- C6: Settings::Validate rejects exactly when the steps are below the window
type's minimum, above the window size, or the median method is chosen with
more than four steps per window, the last case being equivalent to NExamine =
1 + StepsPerWindow outside set containing 3 and 5; a configuration with eight
steps per window and the median method is rejected.  Validation is a pure
function of the settings and reads no samples. -/
theorem claim_C6_validate :
    (∀ s : Settings, s.Validate = false ↔
      (s.StepsPerWindow < minSteps s.mWindowTypes ∨ s.WindowSize < s.StepsPerWindow ∨
        (s.mMethod = DM_MEDIAN ∧ 1 + s.StepsPerWindow ≠ 3 ∧ 1 + s.StepsPerWindow ≠ 5))) ∧
    ({ defaultSettings with mStepsPerWindowChoice := 2, mMethod := DM_MEDIAN } :
      Settings).Validate = false := by
  constructor
  · intro s
    unfold Settings.Validate
    rw [← stepsPerWindow_gt_four_iff s]
    split_ifs with h1 h2 h3 <;> simp_all
  · decide

/-- C7 (amended): for every valid configuration, in reduce mode the
constructed history length is at least max(NExamine, Center + NAttackBlocks);
in profile mode the constructed history length is the constant 1 (so the
bound fails there). -/
theorem claim_C7_historyLen (s : Settings) (rate : ℚ) (hv : s.Validate = true) :
    max (mNWindowsToExamine s rate) (mCenter s rate + nAttackBlocks s rate) ≤
      mHistoryLen false s rate ∧
    mHistoryLen true s rate = 1 := by
  unfold mHistoryLen
  simp

theorem claim_C7_historyLen_witness :
    max (mNWindowsToExamine defaultSettings 44100)
        (mCenter defaultSettings 44100 + nAttackBlocks defaultSettings 44100) ≤
      mHistoryLen false defaultSettings 44100 ∧
    mHistoryLen true defaultSettings 44100 = 1 :=
  claim_C7_historyLen defaultSettings 44100 (by decide)

/-- C7 counterexample: with the default (valid) settings at rate 44100, the
profile-mode history length is 1, which is below
max(NExamine, Center + NAttackBlocks) = max 5 4 = 5. -/
theorem claim_C7_cex :
    defaultSettings.Validate = true ∧
    mHistoryLen true defaultSettings 44100 = 1 ∧
    ¬ (max (mNWindowsToExamine defaultSettings 44100)
        (mCenter defaultSettings 44100 + nAttackBlocks defaultSettings 44100) ≤
        mHistoryLen true defaultSettings 44100) := by
  have hn : mNWindowsToExamine defaultSettings 44100 = 5 := by decide
  have hq : defaultSettings.mAttackTime * 44100 / ((mStepSize defaultSettings : ℕ) : ℚ) =
      441 / 256 := by
    norm_num [defaultSettings, mStepSize, Settings.WindowSize, Settings.StepsPerWindow]
  have ha : nAttackBlocks defaultSettings 44100 = 2 := by
    unfold nAttackBlocks
    rw [hq]
    norm_num
  refine ⟨by decide, by decide, ?_⟩
  rw [hn, ha]
  decide

/-- C8 (amended): for positive noise gain G in dB and at least one attack
block, the per-step attack multiplier mOneBlockAttack =
DB_TO_LINEAR(-G/NA) is strictly less than 1. -/
theorem claim_C8_attack_lt_one (G : ℝ) (NA : ℕ) (hG : 0 < G) (hNA : 1 ≤ NA) :
    mOneBlockAttack G NA < 1 := by
  unfold mOneBlockAttack DB_TO_LINEAR
  apply Real.rpow_lt_one_of_one_lt_of_neg (by norm_num)
  have hNA' : (0 : ℝ) < NA := by exact_mod_cast hNA
  have : -G / (NA : ℝ) < 0 := div_neg_of_neg_of_pos (by linarith) hNA'
  linarith

theorem claim_C8_attack_lt_one_witness : mOneBlockAttack 12 1 < 1 :=
  claim_C8_attack_lt_one 12 1 (by norm_num) le_rfl

/-- C8 counterexample: at G = 12 dB and NA = 1, the attack multiplier is
10^(-12/20) which is not greater than 1, contradicting the claim that it is
strictly greater than 1. -/
theorem claim_C8_cex : ¬ (1 < mOneBlockAttack 12 1) := by
  unfold mOneBlockAttack DB_TO_LINEAR
  rw [not_lt]
  apply le_of_lt
  apply Real.rpow_lt_one_of_one_lt_of_neg (by norm_num)
  norm_num

/-- C10: spectrums stay non-negative across initialization, window filling and
rotation, and immediately after FillFirstHistoryWindow the head record stores
spectrum[k] = real[k]^2 + imag[k]^2 on interior bins, spectrum[0] = real[0]^2
at DC, and spectrum[size-1] = imag[0]^2 at Nyquist. -/
theorem claim_C10_spectrum (size : ℕ) (fft : ℕ → ℝ) (br : ℕ → ℕ) (atten : ℝ)
    (isolate : Bool) (old : SpectrumRecord) (hsize : 2 ≤ size) :
    (∀ k, 1 ≤ k → k < size - 1 →
      (FillFirstHistoryWindow size fft br atten isolate old).mSpectrums k =
        (FillFirstHistoryWindow size fft br atten isolate old).mRealFFTs k ^ 2 +
          (FillFirstHistoryWindow size fft br atten isolate old).mImagFFTs k ^ 2) ∧
    ((FillFirstHistoryWindow size fft br atten isolate old).mSpectrums 0 =
      (FillFirstHistoryWindow size fft br atten isolate old).mRealFFTs 0 ^ 2) ∧
    ((FillFirstHistoryWindow size fft br atten isolate old).mSpectrums (size - 1) =
      (FillFirstHistoryWindow size fft br atten isolate old).mImagFFTs 0 ^ 2) ∧
    ((∀ ii, 0 ≤ old.mSpectrums ii) →
      ∀ ii, 0 ≤ (FillFirstHistoryWindow size fft br atten isolate old).mSpectrums ii) ∧
    (∀ ii, 0 ≤ (startRecord atten).mSpectrums ii) ∧
    (∀ (histLen : ℕ) (q : ℕ → SpectrumRecord),
      (∀ i ii, 0 ≤ (q i).mSpectrums ii) →
      ∀ i ii, 0 ≤ (RotateHistoryWindows histLen q i).mSpectrums ii) := by
  unfold FillFirstHistoryWindow startRecord RotateHistoryWindows
  refine ⟨?_, ?_, ?_, ?_, ?_, ?_⟩
  · intro k hk1 hk2
    dsimp only
    split_ifs <;> first | (exfalso; omega) | ring1
  · dsimp only
    split_ifs <;> first | (exfalso; omega) | ring1
  · dsimp only
    split_ifs <;> first | (exfalso; omega) | ring1
  · intro hold ii
    dsimp only
    split_ifs
    · exact mul_self_nonneg _
    · exact mul_self_nonneg _
    · exact add_nonneg (mul_self_nonneg _) (mul_self_nonneg _)
    · exact hold ii
  · intro ii
    exact le_refl 0
  · intro histLen q hq i ii
    split_ifs <;> exact hq _ _

theorem claim_C10_spectrum_witness :
    (∀ k, 1 ≤ k → k < 3 - 1 →
      (FillFirstHistoryWindow 3 (fun _ => 1) id (1/2) false (startRecord (1/2))).mSpectrums k =
        (FillFirstHistoryWindow 3 (fun _ => 1) id (1/2) false (startRecord (1/2))).mRealFFTs k ^ 2 +
          (FillFirstHistoryWindow 3 (fun _ => 1) id (1/2) false (startRecord (1/2))).mImagFFTs k ^ 2) ∧
    ((FillFirstHistoryWindow 3 (fun _ => 1) id (1/2) false (startRecord (1/2))).mSpectrums 0 =
      (FillFirstHistoryWindow 3 (fun _ => 1) id (1/2) false (startRecord (1/2))).mRealFFTs 0 ^ 2) ∧
    ((FillFirstHistoryWindow 3 (fun _ => 1) id (1/2) false (startRecord (1/2))).mSpectrums (3 - 1) =
      (FillFirstHistoryWindow 3 (fun _ => 1) id (1/2) false (startRecord (1/2))).mImagFFTs 0 ^ 2) ∧
    ((∀ ii, 0 ≤ (startRecord (1/2)).mSpectrums ii) →
      ∀ ii, 0 ≤ (FillFirstHistoryWindow 3 (fun _ => 1) id (1/2) false (startRecord (1/2))).mSpectrums ii) ∧
    (∀ ii, 0 ≤ (startRecord ((1:ℝ)/2)).mSpectrums ii) ∧
    (∀ (histLen : ℕ) (q : ℕ → SpectrumRecord),
      (∀ i ii, 0 ≤ (q i).mSpectrums ii) →
      ∀ i ii, 0 ≤ (RotateHistoryWindows histLen q i).mSpectrums ii) :=
  claim_C10_spectrum 3 (fun _ => 1) id (1/2) false (startRecord (1/2)) (by norm_num)

/-- C9 counterexample: for window type 1 (Hann analysis, rectangular
synthesis) with W = 8 and S = 4 steps, the stored analysis window at sample 2
is the polynomial scaled by the overlap multiplier 1/2, not the unscaled
polynomial the claim asserts. -/
theorem claim_C9_cex :
    mInWindowAt 1 8 4 2 ≠ some (windowPoly (1/2) (-1/2) 0 8 2) := by
  have hc2 : Real.cos (2 * Real.pi * ((2 : ℕ) : ℝ) / ((8 : ℕ) : ℝ)) = 0 := by
    rw [show (2 * Real.pi * ((2 : ℕ) : ℝ) / ((8 : ℕ) : ℝ)) = Real.pi / 2 by
        push_cast
        ring,
      Real.cos_pi_div_two]
  have hpoly : ∀ c0 c1 : ℝ, windowPoly c0 c1 0 8 2 = c0 := by
    intro c0 c1
    unfold windowPoly
    rw [hc2]
    ring
  have hwin : mInWindowAt 1 8 4 2 =
      some (overlapMultiplier 1 4 * windowPoly (1/2) (-1/2) 0 8 2) := by
    unfold mInWindowAt mInWindow inCoefficients
    norm_num
  have hm : overlapMultiplier 1 4 = 1/2 := by
    unfold overlapMultiplier productConstantTerm
    norm_num
  rw [hwin, hm, hpoly]
  simp only [ne_eq, Option.some.injEq]
  norm_num

/-- C9 (amended): the analysis window is omitted exactly for window type 0
(rectangular analysis); for the other six types it stores the raised-cosine
polynomial with the table coefficients, scaled by the overlap multiplier
M = 1/(K*S) exactly for the types whose synthesis window is rectangular
(types 1 and 4), and unscaled for types 2, 3, 5 and 6. -/
theorem claim_C9_inWindow (W steps i : ℕ) :
    mInWindow 0 W steps = none ∧
    mInWindowAt 1 W steps i = some (overlapMultiplier 1 steps * windowPoly (1/2) (-1/2) 0 W i) ∧
    mInWindowAt 4 W steps i =
      some (overlapMultiplier 4 steps * windowPoly 0.54 (-0.46) 0 W i) ∧
    mInWindowAt 2 W steps i = some (windowPoly (1/2) (-1/2) 0 W i) ∧
    mInWindowAt 3 W steps i = some (windowPoly 0.42 (-0.5) 0.08 W i) ∧
    mInWindowAt 5 W steps i = some (windowPoly 0.54 (-0.46) 0 W i) ∧
    mInWindowAt 6 W steps i = some (windowPoly 0.54 (-0.46) 0 W i) := by
  unfold mInWindowAt mInWindow inCoefficients
  norm_num

lemma gather_foldl (ws : List (ℕ → ℚ)) : ∀ st : Statistics,
    (ws.foldl (fun acc p => GatherStatistics p acc) st).mTrackWindows =
      st.mTrackWindows + ws.length ∧
    (ws.foldl (fun acc p => GatherStatistics p acc) st).mTotalWindows = st.mTotalWindows ∧
    (∀ j, (ws.foldl (fun acc p => GatherStatistics p acc) st).mSums j =
      st.mSums j + sourceSum ws j) ∧
    (∀ j, (ws.foldl (fun acc p => GatherStatistics p acc) st).mMeans j = st.mMeans j) := by
  induction ws with
  | nil =>
    intro st
    refine ⟨by simp, by simp, fun j => ?_, fun j => by simp⟩
    simp [sourceSum]
  | cons p ws ih =>
    intro st
    obtain ⟨h1, h2, h3, h4⟩ := ih (GatherStatistics p st)
    refine ⟨?_, ?_, fun j => ?_, fun j => ?_⟩
    · rw [List.foldl_cons, h1]
      simp [GatherStatistics]
      omega
    · rw [List.foldl_cons, h2]
      rfl
    · rw [List.foldl_cons, h3 j]
      simp [GatherStatistics, sourceSum]
      ring
    · rw [List.foldl_cons, h4 j]
      rfl

lemma processSource_invariant (ws : List (ℕ → ℚ)) (st : Statistics) (T : ℕ) (G : ℕ → ℚ)
    (h0 : st.mTrackWindows = 0) (hs : ∀ j, st.mSums j = 0)
    (hT : st.mTotalWindows = T) (hM : ∀ j, st.mMeans j * T = G j) :
    (processSource st ws).mTrackWindows = 0 ∧
    (∀ j, (processSource st ws).mSums j = 0) ∧
    (processSource st ws).mTotalWindows = T + ws.length ∧
    (∀ j, (processSource st ws).mMeans j * (T + ws.length : ℕ) = G j + sourceSum ws j) := by
  obtain ⟨g1, g2, g3, g4⟩ := gather_foldl ws st
  set mid := ws.foldl (fun acc p => GatherStatistics p acc) st with hmid
  unfold processSource
  rw [← hmid]
  by_cases hlen : ws.length = 0
  · have hws : ws = [] := List.length_eq_zero.mp hlen
    have hmid0 : mid.mTrackWindows = 0 := by rw [g1, h0, hlen]
    have hSS : ∀ j, sourceSum ws j = 0 := by
      intro j
      rw [hws]
      simp [sourceSum]
    unfold FinishTrackStatistics
    rw [if_pos hmid0]
    refine ⟨rfl, fun j => ?_, ?_, fun j => ?_⟩
    · dsimp only
      rw [g3 j, hs j, hSS j, add_zero]
    · dsimp only
      rw [g1, g2]
      omega
    · dsimp only
      rw [g4 j, hSS j, hlen]
      push_cast
      simpa using hM j
  · have hmid0 : mid.mTrackWindows = ws.length := by rw [g1, h0, Nat.zero_add]
    have hne : ¬ mid.mTrackWindows = 0 := by omega
    unfold FinishTrackStatistics
    rw [if_neg hne]
    have hlen1 : 1 ≤ ws.length := Nat.one_le_iff_ne_zero.mpr hlen
    have hcast1 : (1 : ℚ) ≤ (ws.length : ℚ) := by exact_mod_cast hlen1
    have hT0 : (0 : ℚ) ≤ (T : ℚ) := Nat.cast_nonneg T
    have hden : ((ws.length : ℚ) + (T : ℚ)) ≠ 0 := by
      apply ne_of_gt
      linarith
    refine ⟨rfl, fun j => rfl, ?_, fun j => ?_⟩
    · dsimp only
      rw [hmid0, g2, hT]
      omega
    · dsimp only
      rw [g4 j, g3 j, hs j, zero_add, g2, hT, hmid0]
      push_cast
      rw [show ((T : ℚ) + (ws.length : ℚ)) = ((ws.length : ℚ) + (T : ℚ)) from add_comm _ _]
      rw [div_mul_cancel₀ _ hden]
      rw [hM j]

lemma foldl_processSource_invariant :
    ∀ (sources : List (List (ℕ → ℚ))) (st : Statistics) (T : ℕ) (G : ℕ → ℚ),
      st.mTrackWindows = 0 → (∀ j, st.mSums j = 0) → st.mTotalWindows = T →
      (∀ j, st.mMeans j * T = G j) →
      (sources.foldl processSource st).mTrackWindows = 0 ∧
      (∀ j, (sources.foldl processSource st).mSums j = 0) ∧
      (sources.foldl processSource st).mTotalWindows = T + totalCount sources ∧
      (∀ j, (sources.foldl processSource st).mMeans j * ((T + totalCount sources : ℕ) : ℚ) =
        G j + grandSum sources j) := by
  intro sources
  induction sources with
  | nil =>
    intro st T G h0 hs hT hM
    refine ⟨h0, hs, ?_, fun j => ?_⟩
    · simp [totalCount, hT]
    · simp only [List.foldl_nil, totalCount, List.map_nil, List.sum_nil, Nat.add_zero,
        grandSum]
      rw [add_zero]
      exact hM j
  | cons ws rest ih =>
    intro st T G h0 hs hT hM
    obtain ⟨p0, ps, pT, pM⟩ := processSource_invariant ws st T G h0 hs hT hM
    have hrec := ih (processSource st ws) (T + ws.length)
      (fun j => G j + sourceSum ws j) p0 ps pT pM
    obtain ⟨r0, rs, rT, rM⟩ := hrec
    refine ⟨by simpa using r0, by simpa using rs, ?_, fun j => ?_⟩
    · rw [List.foldl_cons, rT]
      simp [totalCount]
      omega
    · rw [List.foldl_cons]
      have hcount : T + ws.length + totalCount rest = T + totalCount (ws :: rest) := by
        simp [totalCount]
        omega
      have hgrand : G j + sourceSum ws j + grandSum rest j = G j + grandSum (ws :: rest) j := by
        simp [grandSum]
        ring
      rw [← hcount, rM j, ← hgrand]

/-- C2: over any sequence of profile sources, gathering each window and
finishing each track leaves means[b] equal to the grand mean of all ingested
powers at bin b; and each FinishTrackStatistics call with n = trackWindows >= 1
and m = totalWindows performs means[j] = (means[j]*m + sums[j]) / (n + m),
zeroes the sums, and always sets totalWindows to n + m and trackWindows to 0. -/
theorem claim_C2_profile_mean :
    (∀ (sources : List (List (ℕ → ℚ))) (j : ℕ), 1 ≤ totalCount sources →
      (processProfile sources).mMeans j = grandSum sources j / ((totalCount sources : ℕ) : ℚ)) ∧
    (∀ (st : Statistics) (j : ℕ), 1 ≤ st.mTrackWindows →
      (FinishTrackStatistics st).mMeans j =
        (st.mMeans j * st.mTotalWindows + st.mSums j) /
          ((st.mTrackWindows : ℚ) + st.mTotalWindows) ∧
      (FinishTrackStatistics st).mSums j = 0) ∧
    (∀ st : Statistics,
      (FinishTrackStatistics st).mTotalWindows = st.mTrackWindows + st.mTotalWindows ∧
      (FinishTrackStatistics st).mTrackWindows = 0) := by
  refine ⟨?_, ?_, ?_⟩
  · intro sources j hcount
    obtain ⟨r0, rs, rT, rM⟩ :=
      foldl_processSource_invariant sources initStatistics 0 (fun _ => 0)
        rfl (fun _ => rfl) rfl (fun j => by simp [initStatistics])
    have hM := rM j
    rw [zero_add] at hM
    have hne : ((totalCount sources : ℕ) : ℚ) ≠ 0 := by
      have : (1 : ℚ) ≤ ((totalCount sources : ℕ) : ℚ) := by exact_mod_cast hcount
      intro h
      rw [h] at this
      linarith
    unfold processProfile
    rw [eq_div_iff hne]
    simpa using hM
  · intro st j hn
    have hne : ¬ st.mTrackWindows = 0 := by omega
    unfold FinishTrackStatistics
    rw [if_neg hne]
    exact ⟨rfl, rfl⟩
  · intro st
    unfold FinishTrackStatistics
    split_ifs with h
    · exact ⟨rfl, rfl⟩
    · exact ⟨rfl, rfl⟩

theorem claim_C2_profile_mean_witness :
    (processProfile [[fun _ => (2 : ℚ)], [fun _ => (4 : ℚ)]]).mMeans 0 =
      grandSum [[fun _ => (2 : ℚ)], [fun _ => (4 : ℚ)]] 0 /
        ((totalCount [[fun _ => (2 : ℚ)], [fun _ => (4 : ℚ)]] : ℕ) : ℚ) ∧
    ((FinishTrackStatistics ⟨3, 1, fun _ => 5, fun _ => 7⟩).mMeans 0 =
      ((7 : ℚ) * 3 + 5) / ((1 : ℚ) + 3) ∧
      (FinishTrackStatistics ⟨3, 1, fun _ => 5, fun _ => 7⟩).mSums 0 = 0) ∧
    ((FinishTrackStatistics ⟨3, 1, fun _ => 5, fun _ => 7⟩).mTotalWindows = 1 + 3 ∧
      (FinishTrackStatistics ⟨3, 1, fun _ => 5, fun _ => 7⟩).mTrackWindows = 0) :=
  ⟨claim_C2_profile_mean.1 [[fun _ => (2 : ℚ)], [fun _ => (4 : ℚ)]] 0 (by decide),
   claim_C2_profile_mean.2.1 ⟨3, 1, fun _ => 5, fun _ => 7⟩ 0 (by decide),
   claim_C2_profile_mean.2.2 ⟨3, 1, fun _ => 5, fun _ => 7⟩⟩

/-- C5: ApplyFreqSmoothing computes, at every index of the vector, exp of the
arithmetic mean of the logs over the window clipped to [0, size-1]; with a
zero bin half-width the vector is unchanged. -/
theorem claim_C5_freqSmoothing (size B : ℕ) (g : ℕ → ℝ)
    (hpos : ∀ j, j < size → 0 < g j) :
    (∀ i, i < size → ApplyFreqSmoothing size B g i = specFreqSmoothed size B g i) ∧
    (B = 0 → ∀ i, ApplyFreqSmoothing size B g i = g i) := by
  constructor
  · intro i hi
    unfold ApplyFreqSmoothing specFreqSmoothed
    by_cases hB : B = 0
    · rw [if_pos hB]
      subst hB
      have h2 : min (size - 1) (i + 0) = i := by omega
      have h0 : i - 0 = i := rfl
      rw [h0, h2, Finset.Icc_self, Finset.sum_singleton, Finset.card_singleton]
      rw [Nat.cast_one, div_one, Real.exp_log (hpos i hi)]
    · rw [if_neg hB]
      rw [if_pos hi]
      have hden : min (size - 1) (i + B) - (i - B) + 1 =
          min (size - 1) (i + B) + 1 - (i - B) := by omega
      rw [Nat.card_Icc, ← hden]
  · intro hB i
    unfold ApplyFreqSmoothing
    rw [if_pos hB]

theorem claim_C5_freqSmoothing_witness :
    (∀ i, i < 2 →
      ApplyFreqSmoothing 2 1 (fun _ => (1/2 : ℝ)) i =
        specFreqSmoothed 2 1 (fun _ => (1/2 : ℝ)) i) ∧
    ((1 : ℕ) = 0 → ∀ i,
      ApplyFreqSmoothing 2 1 (fun _ => (1/2 : ℝ)) i = (1/2 : ℝ)) :=
  claim_C5_freqSmoothing 2 1 (fun _ => 1/2) (fun _ _ => by norm_num)

lemma applyFreqSmoothing_range {atten : ℝ} (h0 : 0 < atten) (h1 : atten ≤ 1)
    (size B : ℕ) (v : ℕ → ℝ) (hv : VecInRange atten size v) :
    VecInRange atten size (ApplyFreqSmoothing size B v) := by
  intro i hi
  unfold ApplyFreqSmoothing
  by_cases hB : B = 0
  · rw [if_pos hB]
    exact hv i hi
  · rw [if_neg hB]
    rw [if_pos hi]
    have hmem : ∀ j ∈ Finset.Icc (i - B) (min (size - 1) (i + B)), j < size := by
      intro j hj
      rw [Finset.mem_Icc] at hj
      omega
    have hcard : (Finset.Icc (i - B) (min (size - 1) (i + B))).card =
        min (size - 1) (i + B) - (i - B) + 1 := by
      rw [Nat.card_Icc]
      omega
    have hn : (0 : ℝ) < ((min (size - 1) (i + B) - (i - B) + 1 : ℕ) : ℝ) := by
      exact_mod_cast Nat.succ_pos _
    have hlow : ∀ j ∈ Finset.Icc (i - B) (min (size - 1) (i + B)),
        Real.log atten ≤ Real.log (v j) := by
      intro j hj
      exact Real.log_le_log h0 (hv j (hmem j hj)).1
    have hhigh : ∀ j ∈ Finset.Icc (i - B) (min (size - 1) (i + B)),
        Real.log (v j) ≤ 0 := by
      intro j hj
      exact Real.log_nonpos (le_of_lt (lt_of_lt_of_le h0 (hv j (hmem j hj)).1))
        (hv j (hmem j hj)).2
    have hsumlow : ((min (size - 1) (i + B) - (i - B) + 1 : ℕ) : ℝ) * Real.log atten ≤
        ∑ jj in Finset.Icc (i - B) (min (size - 1) (i + B)), Real.log (v jj) := by
      have hkey := Finset.card_nsmul_le_sum (Finset.Icc (i - B) (min (size - 1) (i + B)))
        (fun j => Real.log (v j)) (Real.log atten) hlow
      rw [nsmul_eq_mul, hcard] at hkey
      exact_mod_cast hkey
    have hsumhigh : (∑ jj in Finset.Icc (i - B) (min (size - 1) (i + B)),
        Real.log (v jj)) ≤ 0 := Finset.sum_nonpos hhigh
    constructor
    · have hq : Real.log atten ≤
          (∑ jj in Finset.Icc (i - B) (min (size - 1) (i + B)), Real.log (v jj)) /
            ((min (size - 1) (i + B) - (i - B) + 1 : ℕ) : ℝ) := by
        rw [le_div_iff hn]
        calc Real.log atten * ((min (size - 1) (i + B) - (i - B) + 1 : ℕ) : ℝ)
            = ((min (size - 1) (i + B) - (i - B) + 1 : ℕ) : ℝ) * Real.log atten := by ring
        _ ≤ _ := hsumlow
      calc atten = Real.exp (Real.log atten) := (Real.exp_log h0).symm
      _ ≤ _ := Real.exp_le_exp.mpr hq
    · have hq : (∑ jj in Finset.Icc (i - B) (min (size - 1) (i + B)), Real.log (v jj)) /
          ((min (size - 1) (i + B) - (i - B) + 1 : ℕ) : ℝ) ≤ 0 :=
        div_nonpos_of_nonpos_of_nonneg hsumhigh hn.le
      calc Real.exp _ ≤ Real.exp 0 := Real.exp_le_exp.mpr hq
      _ = 1 := Real.exp_zero

lemma scan_invariant (l : List ℝ) : ∀ g s : ℝ, s ≤ g →
    (l.foldl secondGreatestStep (g, s)).2 ≤ (l.foldl secondGreatestStep (g, s)).1 ∧
    ∀ t : ℝ,
      ((l.foldl secondGreatestStep (g, s)).2 ≤ t ↔
        (if t < g then 1 else 0) + (if t < s then 1 else 0) +
          l.countP (fun x => decide (t < x)) ≤ 1) ∧
      ((l.foldl secondGreatestStep (g, s)).1 ≤ t ↔
        (if t < g then 1 else 0) + (if t < s then 1 else 0) +
          l.countP (fun x => decide (t < x)) = 0) := by
  induction l with
  | nil =>
    intro g s hsg
    refine ⟨hsg, fun t => ?_⟩
    simp only [List.foldl_nil, List.countP_nil, Nat.add_zero]
    by_cases h1 : t < g <;> by_cases h2 : t < s
    · simp [h1, h2, not_le]
    · simp [h1, h2, not_le] <;> first | exact ⟨le_of_not_lt h2, h1⟩ | exact le_of_not_lt h2 | exact h1
    · exact absurd (lt_of_lt_of_le h2 hsg) h1
    · simp [h1, h2, not_le] <;> first | exact ⟨le_of_not_lt h2, le_of_not_lt h1⟩ | exact le_of_not_lt h2 | exact le_of_not_lt h1
  | cons x l ih =>
    intro g s hsg
    have hstep : secondGreatestStep (g, s) x =
        if g ≤ x then (x, g) else if s ≤ x then (g, x) else (g, s) := rfl
    rw [List.foldl_cons, hstep]
    by_cases hgx : g ≤ x
    · rw [if_pos hgx]
      obtain ⟨hle, hiff⟩ := ih x g hgx
      refine ⟨hle, fun t => ?_⟩
      obtain ⟨hsnd, hfst⟩ := hiff t
      rw [List.countP_cons]
      constructor
      · rw [hsnd]
        by_cases hts : t < s <;> by_cases htg : t < g <;> by_cases htx : t < x <;>
          simp [hts, htg, htx] <;>
          first | omega | exact absurd (lt_of_lt_of_le hts hsg) htg | exact absurd (lt_of_lt_of_le hts (le_trans hsg hgx)) htx | exact absurd (lt_of_lt_of_le htg hgx) htx
      · rw [hfst]
        by_cases hts : t < s <;> by_cases htg : t < g <;> by_cases htx : t < x <;>
          simp [hts, htg, htx] <;>
          first | omega | exact absurd (lt_of_lt_of_le hts hsg) htg | exact absurd (lt_of_lt_of_le hts (le_trans hsg hgx)) htx | exact absurd (lt_of_lt_of_le htg hgx) htx
    · rw [if_neg hgx]
      have hxg : x ≤ g := le_of_lt (not_le.mp hgx)
      by_cases hsx : s ≤ x
      · rw [if_pos hsx]
        obtain ⟨hle, hiff⟩ := ih g x hxg
        refine ⟨hle, fun t => ?_⟩
        obtain ⟨hsnd, hfst⟩ := hiff t
        rw [List.countP_cons]
        constructor
        · rw [hsnd]
          by_cases hts : t < s <;> by_cases htg : t < g <;> by_cases htx : t < x <;>
            simp [hts, htg, htx] <;>
            first | omega | exact absurd (lt_of_lt_of_le hts hsg) htg | exact absurd (lt_of_lt_of_le hts hsx) htx | exact absurd (lt_of_lt_of_le htx hxg) htg
        · rw [hfst]
          by_cases hts : t < s <;> by_cases htg : t < g <;> by_cases htx : t < x <;>
            simp [hts, htg, htx] <;>
            first | omega | exact absurd (lt_of_lt_of_le hts hsg) htg | exact absurd (lt_of_lt_of_le hts hsx) htx | exact absurd (lt_of_lt_of_le htx hxg) htg
      · rw [if_neg hsx]
        have hxs : x ≤ s := le_of_lt (not_le.mp hsx)
        obtain ⟨hle, hiff⟩ := ih g s hsg
        refine ⟨hle, fun t => ?_⟩
        obtain ⟨hsnd, hfst⟩ := hiff t
        rw [List.countP_cons]
        constructor
        · rw [hsnd]
          by_cases hts : t < s <;> by_cases htg : t < g <;> by_cases htx : t < x <;>
            simp [hts, htg, htx] <;>
            first | omega | exact absurd (lt_of_lt_of_le hts hsg) htg | exact absurd (lt_of_lt_of_le htx hxs) hts | exact absurd (lt_of_lt_of_le htx (le_trans hxs hsg)) htg
        · rw [hfst]
          by_cases hts : t < s <;> by_cases htg : t < g <;> by_cases htx : t < x <;>
            simp [hts, htg, htx] <;>
            first | omega | exact absurd (lt_of_lt_of_le hts hsg) htg | exact absurd (lt_of_lt_of_le htx hxs) hts | exact absurd (lt_of_lt_of_le htx (le_trans hxs hsg)) htg

lemma sorted_desc_second_le_iff (a b : ℝ) (rest : List ℝ) (t : ℝ)
    (hsort : (a :: b :: rest).Sorted (fun x y : ℝ => y ≤ x)) :
    (b ≤ t ↔ (a :: b :: rest).countP (fun x => decide (t < x)) ≤ 1) := by
  have hba : b ≤ a := (List.sorted_cons.mp hsort).1 b (by simp)
  have hrest : ∀ x ∈ rest, x ≤ b :=
    (List.sorted_cons.mp (List.sorted_cons.mp hsort).2).1
  rw [List.countP_cons, List.countP_cons]
  constructor
  · intro hbt
    have h1 : rest.countP (fun x => decide (t < x)) = 0 := by
      rw [List.countP_eq_zero]
      intro x hx
      simp only [decide_eq_true_eq, not_lt]
      exact le_trans (hrest x hx) hbt
    simp only [h1, decide_eq_true_eq]
    have h2 : ¬ (t < b) := not_lt.mpr hbt
    simp [h2]
    split_ifs <;> omega
  · intro hcnt
    by_contra hbt
    push_neg at hbt
    have hta : t < a := lt_of_lt_of_le hbt hba
    simp only [decide_eq_true_eq] at hcnt
    rw [if_pos hbt, if_pos hta] at hcnt
    omega

lemma secondGreatestPair_snd_le_iff (l : List ℝ) (hl : 2 ≤ l.length)
    (hnn : ∀ x ∈ l, 0 ≤ x) (t : ℝ) :
    ((secondGreatestPair l).2 ≤ t ↔ secondLargest l ≤ t) := by
  haveI : IsTotal ℝ (fun x y : ℝ => y ≤ x) := ⟨fun a b => le_total b a⟩
  haveI : IsTrans ℝ (fun x y : ℝ => y ≤ x) := ⟨fun _ _ _ hab hbc => le_trans hbc hab⟩
  have hperm : List.Perm (l.insertionSort (fun x y => y ≤ x)) l := List.perm_insertionSort _ l
  have hsorted : (l.insertionSort (fun x y => y ≤ x)).Sorted (fun x y : ℝ => y ≤ x) :=
    List.sorted_insertionSort _ l
  have hcount : (l.insertionSort (fun x y => y ≤ x)).countP (fun x => decide (t < x)) =
      l.countP (fun x => decide (t < x)) := hperm.countP_eq _
  have hlen : 2 ≤ (l.insertionSort (fun x y => y ≤ x)).length := by
    rw [hperm.length_eq]
    exact hl
  obtain ⟨hsc, hiff⟩ := scan_invariant l 0 0 le_rfl
  have hmain := (hiff t).1
  unfold secondGreatestPair
  rw [hmain]
  unfold secondLargest
  have hne1 : l.insertionSort (fun x y => y ≤ x) ≠ [] := by
    intro h
    rw [h] at hlen
    simp at hlen
  obtain ⟨a, m1, hm1⟩ := List.exists_cons_of_ne_nil hne1
  have hne2 : m1 ≠ [] := by
    intro h
    rw [hm1, h] at hlen
    simp at hlen
  obtain ⟨b, rest, hm2⟩ := List.exists_cons_of_ne_nil hne2
  rw [hm2] at hm1
  rw [hm1] at hsorted hcount
  have hsecond := sorted_desc_second_le_iff a b rest t hsorted
  rw [hcount] at hsecond
  rw [hm1]
  have hgetd : (a :: b :: rest).getD 1 0 = b := rfl
  rw [hgetd]
  by_cases ht0 : t < 0
  · have hbmem : b ∈ l := hperm.mem_iff.mp (by rw [hm1]; simp)
    have hb0 : 0 ≤ b := hnn b hbmem
    simp only [if_pos ht0]
    constructor
    · intro h
      exfalso
      omega
    · intro hbt
      exact absurd (lt_of_lt_of_le ht0 hb0) (not_lt.mpr hbt)
  · simp only [if_neg ht0]
    simpa using hsecond.symm

/-- C3: with the SecondGreatest method, Classify reports noise at a band
exactly when the second largest of the NExamine examined powers is at most
mNewSensitivity * means[band], where mNewSensitivity is the configured
sensitivity (a -log10 probability) multiplied by ln 10. -/
theorem claim_C3_classify (n : ℕ) (queue : ℕ → ℕ → ℝ) (sens : ℝ) (means : ℕ → ℝ)
    (band : ℕ) (hn : 2 ≤ n) (hnn : ∀ ii, ii < n → 0 ≤ queue ii band) :
    (Classify n queue (mNewSensitivity sens) means band ↔
      secondLargest (examinedPowers n queue band) ≤ sens * Real.log 10 * means band) := by
  unfold Classify mNewSensitivity
  rw [mul_assoc]
  apply secondGreatestPair_snd_le_iff
  · unfold examinedPowers
    simp [hn]
  · intro x hx
    unfold examinedPowers at hx
    simp only [List.mem_map, List.mem_range] at hx
    obtain ⟨ii, hii, rfl⟩ := hx
    exact hnn ii hii

theorem claim_C3_classify_witness :
    (Classify 3 (fun ii _ => (ii : ℝ)) (mNewSensitivity 6) (fun _ => 1) 0 ↔
      secondLargest (examinedPowers 3 (fun ii _ => (ii : ℝ)) 0) ≤
        6 * Real.log 10 * 1) :=
  claim_C3_classify 3 (fun ii _ => (ii : ℝ)) 6 (fun _ => 1) 0 (by norm_num)
    (fun ii _ => Nat.cast_nonneg ii)

lemma DecaySeq_shift (atten a prev : ℝ) :
    ∀ m, DecaySeq atten a (max atten (prev * a)) m = DecaySeq atten a prev (m + 1)
  | 0 => by
    simp [DecaySeq]
  | m + 1 => by
    rw [DecaySeq, DecaySeq_shift atten a prev m]
    rfl

lemma attackColAux_spec (atten a : ℝ) : ∀ (fuel : ℕ) (c : ℕ → ℝ) (prev : ℝ) (i : ℕ),
    ∃ k, k ≤ fuel ∧
      (∀ m, m < k → c (i + m) < DecaySeq atten a prev m) ∧
      (k < fuel → ¬ c (i + k) < DecaySeq atten a prev k) ∧
      (∀ x, attackColAux atten a c prev i fuel x =
        if i ≤ x ∧ x < i + k then DecaySeq atten a prev (x - i) else c x) := by
  intro fuel
  induction fuel with
  | zero =>
    intro c prev i
    refine ⟨0, le_rfl, fun m hm => absurd hm (Nat.not_lt_zero m), fun h => absurd h (by omega),
      fun x => ?_⟩
    rw [if_neg (by omega)]
    rfl
  | succ fuel ih =>
    intro c prev i
    rw [attackColAux]
    by_cases hci : c i < max atten (prev * a)
    · rw [if_pos hci]
      obtain ⟨k, hk, hlt, hbreak, heq⟩ :=
        ih (Function.update c i (max atten (prev * a))) (max atten (prev * a)) (i + 1)
      refine ⟨k + 1, by omega, ?_, ?_, ?_⟩
      · intro m hm
        rcases m with _ | m
        · simpa [DecaySeq] using hci
        · have := hlt m (by omega)
          rw [Function.update_noteq (by omega), DecaySeq_shift] at this
          have harith : i + 1 + m = i + (m + 1) := by omega
          rw [harith] at this
          exact this
      · intro hklt
        have := hbreak (by omega)
        rw [Function.update_noteq (by omega), DecaySeq_shift] at this
        have harith : i + 1 + k = i + (k + 1) := by omega
        rw [harith] at this
        exact this
      · intro x
        rw [heq x]
        by_cases hx1 : i + 1 ≤ x ∧ x < i + 1 + k
        · rw [if_pos hx1, if_pos (by omega)]
          rw [DecaySeq_shift]
          congr 1
          omega
        · rw [if_neg hx1]
          by_cases hxi : x = i
          · rw [hxi, Function.update_same, if_pos (by omega)]
            simp [DecaySeq]
          · rw [Function.update_noteq hxi, if_neg (by omega)]
    · rw [if_neg hci]
      refine ⟨0, by omega, fun m hm => absurd hm (Nat.not_lt_zero m), fun _ => ?_, fun x => ?_⟩
      · simpa [DecaySeq] using hci
      · rw [if_neg (by omega)]

/-- C4: in non-isolate modes the temporal shaping transforms the gains exactly
as described: along each band there is a stopping slot; strictly between the
center and the stop every slot's gain is overwritten by the decay candidate
max(atten, prev * a) chained from the center gain (each such original gain
being below its candidate), the walk stops at the first slot at or above its
candidate, the release then sets slot center-1 to
max(old, max(atten, centerGain * r)), and every other slot is unchanged. -/
theorem claim_C4_temporal (atten a r : ℝ) (center histLen : ℕ) (g : ℕ → ℕ → ℝ)
    (jj : ℕ) (hc : 1 ≤ center) (hcl : center + 1 ≤ histLen) :
    ∃ stop, center + 1 ≤ stop ∧ stop ≤ histLen ∧
      (∀ i, center + 1 ≤ i → i < stop →
        g i jj < DecaySeq atten a (g center jj) (i - (center + 1))) ∧
      (stop < histLen →
        ¬ g stop jj < DecaySeq atten a (g center jj) (stop - (center + 1))) ∧
      (∀ ii, temporalShape atten a r center histLen g ii jj =
        if center + 1 ≤ ii ∧ ii < stop then
          DecaySeq atten a (g center jj) (ii - (center + 1))
        else if ii = center - 1 then
          max (g (center - 1) jj) (max atten (g center jj * r))
        else g ii jj) := by
  obtain ⟨k, hk, hlt, hbreak, heq⟩ :=
    attackColAux_spec atten a (histLen - (center + 1)) (fun i => g i jj)
      (g center jj) (center + 1)
  refine ⟨center + 1 + k, by omega, by omega, ?_, ?_, ?_⟩
  · intro i hi1 hi2
    have := hlt (i - (center + 1)) (by omega)
    have harith : center + 1 + (i - (center + 1)) = i := by omega
    rw [harith] at this
    exact this
  · intro hstop
    have := hbreak (by omega)
    have harith : center + 1 + k = center + 1 + k := rfl
    simpa using this
  · intro ii
    unfold temporalShape releaseStep
    have hA : ∀ x, attackStep atten a center histLen g x jj =
        if center + 1 ≤ x ∧ x < center + 1 + k then
          DecaySeq atten a (g center jj) (x - (center + 1))
        else g x jj := by
      intro x
      unfold attackStep attackCol
      exact heq x
    by_cases hrel : ii = center - 1
    · rw [if_pos hrel]
      rw [hA (center - 1), hA center]
      rw [if_neg (by omega), if_neg (by omega)]
      rw [if_neg (by omega : ¬ (center + 1 ≤ ii ∧ ii < center + 1 + k)), if_pos hrel]
    · rw [if_neg hrel]
      rw [hA ii]
      by_cases hr : center + 1 ≤ ii ∧ ii < center + 1 + k
      · rw [if_pos hr, if_pos hr]
      · rw [if_neg hr, if_neg hr, if_neg hrel]

theorem claim_C4_temporal_witness :
    ∃ stop, 1 + 1 ≤ stop ∧ stop ≤ 3 ∧
      (∀ i, 1 + 1 ≤ i → i < stop →
        (fun _ _ => (1 : ℝ)) i 0 < DecaySeq (1/2) (1/2) ((fun _ _ => (1 : ℝ)) 1 0) (i - (1 + 1))) ∧
      (stop < 3 →
        ¬ (fun _ _ => (1 : ℝ)) stop 0 <
          DecaySeq (1/2) (1/2) ((fun _ _ => (1 : ℝ)) 1 0) (stop - (1 + 1))) ∧
      (∀ ii, temporalShape (1/2) (1/2) (1/2) 1 3 (fun _ _ => (1 : ℝ)) ii 0 =
        if 1 + 1 ≤ ii ∧ ii < stop then
          DecaySeq (1/2) (1/2) ((fun _ _ => (1 : ℝ)) 1 0) (ii - (1 + 1))
        else if ii = 1 - 1 then
          max ((fun _ _ => (1 : ℝ)) (1 - 1) 0)
            (max (1/2) ((fun _ _ => (1 : ℝ)) 1 0 * (1/2)))
        else (fun _ _ => (1 : ℝ)) ii 0) :=
  claim_C4_temporal (1/2) (1/2) (1/2) 1 3 (fun _ _ => 1) 0 le_rfl (by norm_num)

lemma DB_TO_LINEAR_pos (x : ℝ) : 0 < DB_TO_LINEAR x :=
  Real.rpow_pos_of_pos (by norm_num) _

lemma DB_TO_LINEAR_le_one {x : ℝ} (hx : x ≤ 0) : DB_TO_LINEAR x ≤ 1 :=
  Real.rpow_le_one_of_one_le_of_nonpos (by norm_num)
    (div_nonpos_of_nonpos_of_nonneg hx (by norm_num))

lemma noiseGain_nonneg_of_atten_le_one {G : ℝ} (h : mNoiseAttenFactor G ≤ 1) :
    0 ≤ G := by
  by_contra hG
  push_neg at hG
  have hpos : 0 < -G / 20 := div_pos (by linarith) (by norm_num)
  have hgt : 1 < (10 : ℝ) ^ (-G / 20) :=
    (Real.one_lt_rpow_iff_of_pos (by norm_num)).mpr (Or.inl ⟨by norm_num, hpos⟩)
  unfold mNoiseAttenFactor DB_TO_LINEAR at h
  linarith

lemma attackColAux_range {atten a : ℝ} (h0 : 0 < atten) (h1 : atten ≤ 1)
    (ha0 : 0 ≤ a) (ha1 : a ≤ 1) :
    ∀ (fuel : ℕ) (c : ℕ → ℝ) (prev : ℝ) (i : ℕ),
      (∀ x, atten ≤ c x ∧ c x ≤ 1) → atten ≤ prev → prev ≤ 1 →
      ∀ x, atten ≤ attackColAux atten a c prev i fuel x ∧
        attackColAux atten a c prev i fuel x ≤ 1 := by
  intro fuel
  induction fuel with
  | zero =>
    intro c prev i hc _ _ x
    rw [attackColAux]
    exact hc x
  | succ fuel ih =>
    intro c prev i hc hp0 hp1 x
    rw [attackColAux]
    have hcand0 : atten ≤ max atten (prev * a) := le_max_left _ _
    have hcand1 : max atten (prev * a) ≤ 1 :=
      max_le h1 (mul_le_one hp1 ha0 ha1)
    by_cases hci : c i < max atten (prev * a)
    · rw [if_pos hci]
      apply ih
      · intro y
        by_cases hy : y = i
        · rw [hy, Function.update_same]
          exact ⟨hcand0, hcand1⟩
        · rw [Function.update_noteq hy]
          exact hc y
      · exact hcand0
      · exact hcand1
    · rw [if_neg hci]
      exact hc x

lemma temporalShape_range {atten a r : ℝ} (h0 : 0 < atten) (h1 : atten ≤ 1)
    (ha0 : 0 ≤ a) (ha1 : a ≤ 1) (hr0 : 0 ≤ r) (hr1 : r ≤ 1)
    (center histLen : ℕ) (g : ℕ → ℕ → ℝ) (hg : GainsInRange atten g) :
    GainsInRange atten (temporalShape atten a r center histLen g) := by
  have hA : GainsInRange atten (attackStep atten a center histLen g) := by
    intro ii jj
    unfold attackStep attackCol
    exact attackColAux_range h0 h1 ha0 ha1 _ _ _ _ (fun x => hg x jj)
      (hg center jj).1 (hg center jj).2 ii
  intro ii jj
  unfold temporalShape releaseStep
  split_ifs with h
  · constructor
    · exact le_trans (hA (center - 1) jj).1 (le_max_left _ _)
    · exact max_le (hA (center - 1) jj).2
        (max_le h1 (mul_le_one (hA center jj).2 hr0 hr1))
  · exact hA ii jj

/-- C1: in reduce mode, with 0 < mNoiseAttenFactor <= 1, every stage keeps
every gain of every ring slot in [mNoiseAttenFactor, 1]: the StartNewTrack
initialization, the FillFirstHistoryWindow gain reset, the per-band classifier
raise at the center (for any classifier verdicts and any band-of-interest
bounds), the temporal attack and release shaping with multipliers
mOneBlockAttack and mOneBlockRelease, and the frequency smoothing of one gain
vector. -/
theorem claim_C1_gain_invariant (G : ℝ) (NA NR : ℕ)
    (h0 : 0 < mNoiseAttenFactor G) (h1 : mNoiseAttenFactor G ≤ 1) :
    GainsInRange (mNoiseAttenFactor G) (startGains (mNoiseAttenFactor G)) ∧
    (∀ g, GainsInRange (mNoiseAttenFactor G) g →
      GainsInRange (mNoiseAttenFactor G) (fillHeadGains (mNoiseAttenFactor G) g)) ∧
    (∀ center binLow binHigh size isNoise g, GainsInRange (mNoiseAttenFactor G) g →
      GainsInRange (mNoiseAttenFactor G)
        (reduceRaise center binLow binHigh size isNoise g)) ∧
    (∀ center histLen g, GainsInRange (mNoiseAttenFactor G) g →
      GainsInRange (mNoiseAttenFactor G)
        (temporalShape (mNoiseAttenFactor G) (mOneBlockAttack G NA)
          (mOneBlockRelease G NR) center histLen g)) ∧
    (∀ size B v, VecInRange (mNoiseAttenFactor G) size v →
      VecInRange (mNoiseAttenFactor G) size (ApplyFreqSmoothing size B v)) := by
  have hG : 0 ≤ G := noiseGain_nonneg_of_atten_le_one h1
  have ha0 : 0 ≤ mOneBlockAttack G NA := (DB_TO_LINEAR_pos _).le
  have ha1 : mOneBlockAttack G NA ≤ 1 :=
    DB_TO_LINEAR_le_one
      (div_nonpos_of_nonpos_of_nonneg (neg_nonpos.mpr hG) (Nat.cast_nonneg NA))
  have hr0 : 0 ≤ mOneBlockRelease G NR := (DB_TO_LINEAR_pos _).le
  have hr1 : mOneBlockRelease G NR ≤ 1 :=
    DB_TO_LINEAR_le_one
      (div_nonpos_of_nonpos_of_nonneg (neg_nonpos.mpr hG) (Nat.cast_nonneg NR))
  refine ⟨?_, ?_, ?_, ?_, ?_⟩
  · intro ii jj
    exact ⟨le_rfl, h1⟩
  · intro g hg ii jj
    unfold fillHeadGains
    split_ifs
    · exact ⟨le_rfl, h1⟩
    · exact hg ii jj
  · intro center binLow binHigh size isNoise g hg ii jj
    unfold reduceRaise
    split_ifs
    · exact ⟨h1, le_rfl⟩
    · exact ⟨h1, le_rfl⟩
    · exact hg ii jj
    · exact ⟨h1, le_rfl⟩
    · exact hg ii jj
    · exact hg ii jj
  · intro center histLen g hg
    exact temporalShape_range h0 h1 ha0 ha1 hr0 hr1 center histLen g hg
  · intro size B v hv
    exact applyFreqSmoothing_range h0 h1 size B v hv

theorem claim_C1_gain_invariant_witness :
    GainsInRange (mNoiseAttenFactor 12) (startGains (mNoiseAttenFactor 12)) ∧
    (∀ g, GainsInRange (mNoiseAttenFactor 12) g →
      GainsInRange (mNoiseAttenFactor 12) (fillHeadGains (mNoiseAttenFactor 12) g)) ∧
    (∀ center binLow binHigh size isNoise g, GainsInRange (mNoiseAttenFactor 12) g →
      GainsInRange (mNoiseAttenFactor 12)
        (reduceRaise center binLow binHigh size isNoise g)) ∧
    (∀ center histLen g, GainsInRange (mNoiseAttenFactor 12) g →
      GainsInRange (mNoiseAttenFactor 12)
        (temporalShape (mNoiseAttenFactor 12) (mOneBlockAttack 12 1)
          (mOneBlockRelease 12 1) center histLen g)) ∧
    (∀ size B v, VecInRange (mNoiseAttenFactor 12) size v →
      VecInRange (mNoiseAttenFactor 12) size (ApplyFreqSmoothing size B v)) :=
  claim_C1_gain_invariant 12 1 1 (DB_TO_LINEAR_pos _)
    (DB_TO_LINEAR_le_one (by norm_num))

end NoiseReduction
